import Mathlib

/-!
Verification development for the ftgbot moderation bot (`src/main.py`).

The bot's persisted state (the `users` table, the allow-lists) and the pure
decision logic of its handlers are embedded as executable Lean definitions.
External transport effects (deleting messages, restricting members, sending
notifications, scheduling tasks) are recorded as values of an `Action` type,
in the order the code performs them; the free-text contents of the messages
sent to the chat are abstracted away, the structural data (chat ids, user
ids, timestamps, durations, flags) is kept.  Times are integers counting
Unix seconds, mirroring `datetime.now()` / `timedelta` arithmetic.
-/

set_option linter.unusedVariables false

namespace Ftgbot

/-- One element of a user's `history` JSON array, as built in
`add_punishment`: `{"id": int(now.timestamp()), "date": ..., "type": p_type,
"reason": reason, "duration": duration, "issued_by": issued_by}`.  The
human-readable `date` string is kept as the numeric timestamp it renders. -/
structure Entry where
  id : Int
  date : Int
  type : String
  reason : String
  duration : Int
  issued_by : String
deriving DecidableEq

/-- A row of the `users` table:
`user_id, join_date, aliasName, warns, bans, history`. -/
structure UserRec where
  user_id : Int
  join_date : Int
  aliasName : String
  warns : Int
  bans : Int
  history : List Entry
deriving DecidableEq

/-- The `users` table, rows keyed by their `user_id` field (the primary key). -/
abbrev Ledger := List UserRec

/-- `get_user`: `SELECT ... FROM users WHERE user_id = %s`. -/
def get_user (db : Ledger) (uid : Int) : Option UserRec :=
  db.find? (fun r => r.user_id == uid)

/-- The fresh row that `create_user` INSERTs: zero counters, empty history. -/
def freshUser (uid : Int) (aliasName : String) (now : Int) : UserRec :=
  { user_id := uid, join_date := now, aliasName := aliasName, warns := 0, bans := 0,
    history := [] }

/-- `create_user`: `INSERT ... ON CONFLICT (user_id) DO NOTHING`. -/
def create_user (db : Ledger) (uid : Int) (aliasName : String) (now : Int) :
    Ledger :=
  if (get_user db uid).isSome then db else db ++ [freshUser uid aliasName now]

/-- `update_user_record`: `UPDATE users SET ... WHERE user_id = %s`
(replaces the row with the given dict). -/
def update_user_record (db : Ledger) (u : UserRec) : Ledger :=
  db.map (fun r => if r.user_id == u.user_id then u else r)

/-- The history entry dict built at the top of `add_punishment`. -/
def mkEntry (now : Int) (p_type reason : String) (duration : Int)
    (issued_by : String) : Entry :=
  { id := now, date := now, type := p_type, reason := reason,
    duration := duration, issued_by := issued_by }

/-- `add_punishment(user_id, aliasName, p_type, reason, duration, issued_by)`:
auto-creates the user if absent, bumps `warns` for a warn / `bans` for a ban,
appends the entry to `history`, and persists the row.  Returns the updated
ledger together with the updated user dict (the Python function returns the
dict). -/
def add_punishment (db : Ledger) (now : Int) (uid : Int) (aliasName : String)
    (p_type reason : String) (duration : Int) (issued_by : String) :
    Ledger × UserRec :=
  let entry := mkEntry now p_type reason duration issued_by
  let db1 := if (get_user db uid).isSome then db
             else create_user db uid aliasName now
  let user := (get_user db1 uid).getD (freshUser uid aliasName now)
  let user1 :=
    if p_type == "warn" then { user with warns := user.warns + 1 }
    else if p_type == "ban" then { user with bans := user.bans + 1 }
    else user
  let user2 := { user1 with history := user1.history ++ [entry] }
  (update_user_record db1 user2, user2)

/-- The warn count that `process_violation` reads:
`record = get_user(user.id) or {"warns": 0}; record["warns"]`. -/
def warnsOf (db : Ledger) (uid : Int) : Int :=
  match get_user db uid with
  | some u => u.warns
  | none => 0

/-- The ban counter of an identity, zero when the row is absent. -/
def bansOf (db : Ledger) (uid : Int) : Int :=
  match get_user db uid with
  | some u => u.bans
  | none => 0

/-- The history of an identity, empty when the row is absent. -/
def historyOf (db : Ledger) (uid : Int) : List Entry :=
  match get_user db uid with
  | some u => u.history
  | none => []

/-- The ledger that `add_punishment` reads its user from: unchanged when the
identity is present, extended by `create_user` otherwise. -/
def punishBase (db : Ledger) (uid : Int) (aliasName : String) (now : Int) :
    Ledger :=
  if (get_user db uid).isSome then db else create_user db uid aliasName now

/-- Whether a history entry is of kind warn
(`record["history"][i].get("type") == "warn"`). -/
def isWarn (e : Entry) : Bool := e.type == "warn"

/-- Number of warn-kind entries currently in a history. -/
def countWarns (h : List Entry) : Nat := (h.filter isWarn).length

/-- Remove the first warn-kind entry of a list (helper). -/
def removeFirstWarn : List Entry → List Entry
  | [] => []
  | e :: es => if isWarn e then es else e :: removeFirstWarn es

/-- The history mutation of `unwarn_command`: iterate `i` from the end of
`history` down to 0 and pop the first entry with `type == "warn"`, then stop
— i.e. remove the last warn-kind entry, keeping everything else. -/
def removeLastWarn (h : List Entry) : List Entry :=
  (removeFirstWarn h.reverse).reverse

/-- The ledger part of `unwarn_command` (after argument parsing): if the row
is absent or `warns == 0`, no mutation (the command replies that there is
nothing to remove); otherwise decrement `warns`, pop the last warn entry and
persist.  The Bool reports whether a removal happened. -/
def unwarn_core (db : Ledger) (target : Int) : Ledger × Bool :=
  match get_user db target with
  | none => (db, false)
  | some r =>
    if r.warns == 0 then (db, false)
    else
      let r1 := { r with warns := r.warns - 1,
                         history := removeLastWarn r.history }
      (update_user_record db r1, true)

/-- Invariant: the `warns` counter equals the number of warn-kind entries in
`history`. -/
def WarnInv (r : UserRec) : Prop := r.warns = (countWarns r.history : Int)

instance (r : UserRec) : Decidable (WarnInv r) := by
  unfold WarnInv
  infer_instance

/-- The invariant, for every row of the users table. -/
def LedgerInv (db : Ledger) : Prop := ∀ r ∈ db, WarnInv r

instance (db : Ledger) : Decidable (LedgerInv db) := by
  unfold LedgerInv
  infer_instance

/-- The two ledger mutations the program performs: an `add_punishment` call
(from `process_violation`, `/ban`, `/warn`, `/mute`) and the removal done by
`/unwarn`. -/
inductive Mut where
  | punish (now : Int) (uid : Int) (aliasName p_type reason : String)
      (duration : Int) (issued_by : String)
  | unwarn (uid : Int)

/-- Apply one mutation to the users table. -/
def applyMut (db : Ledger) : Mut → Ledger
  | .punish now uid aliasName p_type reason duration issued_by =>
    (add_punishment db now uid aliasName p_type reason duration issued_by).1
  | .unwarn uid => (unwarn_core db uid).1

/-- Python regex whitespace, the complement of `\\S`. -/
def pySpace (c : Char) : Bool :=
  c == ' ' || c == '\t' || c == '\n' || c == '\r' ||
  c == '\x0b' || c == '\x0c'

/-- Match the literal scheme `https?://` at the head of the text, returning
the scheme characters and the remainder. -/
def matchScheme : List Char → Option (List Char × List Char)
  | 'h' :: 't' :: 't' :: 'p' :: 's' :: ':' :: '/' :: '/' :: rest =>
    some (['h', 't', 't', 'p', 's', ':', '/', '/'], rest)
  | 'h' :: 't' :: 't' :: 'p' :: ':' :: '/' :: '/' :: rest =>
    some (['h', 't', 't', 'p', ':', '/', '/'], rest)
  | _ => none

/-- `re.findall(r'https?://\\S+', text)`: scan left to right; at a match,
take the scheme plus the maximal nonempty run of non-whitespace characters
and continue after it (matches do not overlap); otherwise advance one
character.  The fuel argument (instantiated with the text length, which
bounds the number of scan steps) makes the recursion structural. -/
def findall_go : Nat → List Char → List (List Char)
  | 0, _ => []
  | _, [] => []
  | fuel + 1, c :: cs =>
    match matchScheme (c :: cs) with
    | some (sch, rest) =>
      let body := rest.takeWhile (fun ch => !(pySpace ch))
      if body.isEmpty then findall_go fuel cs
      else (sch ++ body) :: findall_go fuel (rest.drop body.length)
    | none => findall_go fuel cs

def findall_urls (l : List Char) : List (List Char) :=
  findall_go l.length l

/-- The netloc of a matched URL: everything between `://` and the first of
`/`, `?`, `#` (CPython `urlsplit` / `_splitnetloc`). -/
def urlNetloc (u : List Char) : List Char :=
  match matchScheme u with
  | some (_, rest) =>
    rest.takeWhile (fun c => !(c == '/') && !(c == '?') && !(c == '#'))
  | none => []

/-- CPython `urlsplit` raises `ValueError ("Invalid IPv6 URL")` when the
netloc has `[` without `]` or vice versa; this predicate is true when no
such error is raised. -/
def validNetloc (netloc : List Char) : Bool :=
  !((netloc.contains '[' && !(netloc.contains ']')) ||
    (netloc.contains ']' && !(netloc.contains '[')))

/-- The part of `l` after the last occurrence of `c` (all of `l` when `c`
does not occur): Python `l.rpartition(c)[2]`. -/
def rpartAfter (c : Char) (l : List Char) : List Char :=
  (l.reverse.takeWhile (fun x => !(x == c))).reverse

/-- The part of `l` after the first occurrence of `c` (empty when `c` does
not occur): Python `l.partition(c)[2]`. -/
def afterFirst (c : Char) (l : List Char) : List Char :=
  (l.dropWhile (fun x => !(x == c))).drop 1

/-- CPython `SplitResult.hostname` for a URL: from the netloc, drop the
userinfo (up to the last `@`), take the bracketed part for IPv6 literals and
otherwise everything before the port colon, and lowercase.  The code maps
the `None` returned for an empty hostname back to `""` (`... or ""`). -/
def urlHostname (u : List Char) : List Char :=
  let hostinfo := rpartAfter '@' (urlNetloc u)
  let hostname :=
    if hostinfo.contains '[' then
      (afterFirst '[' hostinfo).takeWhile (fun x => !(x == ']'))
    else hostinfo.takeWhile (fun x => !(x == ':'))
  hostname.map Char.toLower

/-- `host.replace("www.", "")`: remove every (non-overlapping, left-to-right)
occurrence of the four characters `www.`. -/
def stripWWW : List Char → List Char
  | [] => []
  | 'w' :: 'w' :: 'w' :: '.' :: rest => stripWWW rest
  | c :: cs => c :: stripWWW cs

/-- The body of the `extract_domains` loop over one matched URL list:
`none` models the `ValueError` that `urlparse` raises on a bracket-invalid
netloc escaping the whole call. -/
def domains_go : List (List Char) → Option (List (List Char))
  | [] => some []
  | u :: us =>
    if validNetloc (urlNetloc u) then
      match domains_go us with
      | some ds => some (stripWWW (urlHostname u) :: ds)
      | none => none
    else none

/-- `extract_domains(text)`: find the URLs, resolve each to
`urlparse(u).hostname or ""` and strip `"www."` occurrences. -/
def extract_domains (text : List Char) : Option (List (List Char)) :=
  domains_go (findall_urls text)

/-- The verdict of `handle_message`: whether some extracted domain is
nonempty and not allow-listed (in which case `process_violation` runs for
the first such domain).  `none` from `extract_domains` models the uncaught
exception: no violation is processed. -/
def handle_message (allowed : List (List Char)) (text : List Char) : Bool :=
  match extract_domains text with
  | none => false
  | some doms => doms.any (fun d => !d.isEmpty && !(allowed.contains d))

/-- The part of the path after the last `/` (posixpath basename). -/
def basenameOf (p : List Char) : List Char :=
  (p.reverse.takeWhile (fun c => !(c == '/'))).reverse

/-- The part after the last `.`. -/
def afterLastDot (b : List Char) : List Char :=
  (b.reverse.takeWhile (fun c => !(c == '.'))).reverse

/-- `os.path.splitext(p)[1]` (genericpath `_splitext`, posix separators):
the extension starting at the last dot, unless every character of the
basename before that dot is itself a dot (leading dots of a filename do not
begin an extension), in which case empty. -/
def splitext_ext (p : List Char) : List Char :=
  let b := basenameOf p
  if b.contains '.' then
    let post := afterLastDot b
    let pre := b.take (b.length - post.length - 1)
    if pre.any (fun c => !(c == '.')) then '.' :: post else []
  else []

/-- Python `s.lstrip(".")`: drop all leading dots. -/
def pyLstripDot : List Char → List Char
  | '.' :: rest => pyLstripDot rest
  | l => l

/-- The verdict of `handle_document`:
`ext = os.path.splitext(doc.file_name)[1].lstrip(".").lower()`, violation
iff `ext not in ALLOWED_EXTS`. -/
def handle_document (exts : List (List Char)) (file_name : List Char) :
    Bool :=
  let ext := (pyLstripDot (splitext_ext file_name)).map Char.toLower
  !(exts.contains ext)

/-- Bot configuration from the environment: `FRONTEND_CHAT_ID`,
`ADMIN_GROUP_ID`, `BOT_THREAD_ID`, `LOGS_THREAD_ID`. -/
structure Cfg where
  frontendChatId : Int
  adminGroupId : Int
  botThreadId : Int
  logsThreadId : Int
deriving DecidableEq

/-- The parts of an incoming message/command relevant to the handlers:
where it was sent, and the result of the `is_admin_in_frontend` check for
its sender (the delegated `get_chat_administrators` query). -/
structure MsgCtx where
  chatId : Int
  threadId : Int
  isAdminInFrontend : Bool
  fromFirstName : String
deriving DecidableEq

/-- A scheduled reversal kind. -/
inductive RevKind where
  | unban
  | unmute
deriving DecidableEq

/-- External transport effects, in program order.  Message texts are
abstracted; the structural payload (chat ids, thread ids, user ids, times,
flags) is kept.  `schedule` records an `asyncio.create_task` of a delayed
reversal with its delay in seconds. -/
inductive Action where
  | deleteMessage
  | deleteCommand
  | reply
  | sendMessage (chatId : Int) (threadId : Option Int)
  | restrict (chatId uid : Int) (untilSec : Int)
  | unrestrict (chatId uid : Int)
  | banMember (chatId uid : Int)
  | unbanOnlyIfBanned (chatId uid : Int)
  | schedule (rev : RevKind) (uid : Int) (delaySec : Int)
deriving DecidableEq

def Action.isRestrict : Action → Bool
  | .restrict _ _ _ => true
  | _ => false

def Action.isSchedule : Action → Bool
  | .schedule _ _ _ => true
  | _ => false

/-- `process_violation(update, context, reason, detail)`: delete the message
(best effort), log to the admin logs thread, then either warn (first
violation: notify with the allow-lists, append a `warn` entry, duration 0,
issued by `"bot"`) or mute (repeat: restrict until `now + 1 hour`, append a
`mute` entry, duration 60, issued by `"bot"`, notify). -/
def process_violation (cfg : Cfg) (db : Ledger) (now : Int)
    (chatId uid : Int) (aliasName reason : String) : Ledger × List Action :=
  let pre := [Action.deleteMessage,
              Action.sendMessage cfg.adminGroupId (some cfg.logsThreadId)]
  if warnsOf db uid == 0 then
    let db1 := (add_punishment db now uid aliasName "warn" reason 0 "bot").1
    (db1, pre ++ [Action.sendMessage chatId none])
  else
    let db1 := (add_punishment db now uid aliasName "mute" reason 60 "bot").1
    (db1, pre ++ [Action.restrict chatId uid (now + 3600),
                  Action.sendMessage chatId none])

/-- `is_valid_admin_command`: right admin group, right command topic, and
the sender is an administrator of the frontend chat. -/
def is_valid_admin_command (cfg : Cfg) (m : MsgCtx) : Bool :=
  if !(m.chatId == cfg.adminGroupId) || !(m.threadId == cfg.botThreadId) then
    false
  else m.isAdminInFrontend

/-- Python `int()` on a command argument: an optional sign followed by
decimal digits (the only shapes the bot receives from `context.args`). -/
def digitsVal : List Char → Option Nat
  | [] => none
  | l =>
    l.foldl (fun acc c =>
      match acc with
      | none => none
      | some n => if c.isDigit then some (n * 10 + (c.toNat - 48)) else none)
      (some 0)

def pyInt : String → Option Int
  | s =>
    match s.data with
    | '-' :: ds => (digitsVal ds).map (fun n => -(n : Int))
    | '+' :: ds => (digitsVal ds).map (fun n => (n : Int))
    | ds => (digitsVal ds).map (fun n => (n : Int))

/-- `" ".join(args[1:-1])`: the reason words of a punishment command. -/
def joinReason (args : List String) : String :=
  " ".intercalate (args.drop 1).dropLast

/-- `/ban user_id reason hours`: validate, ban on the platform, append a
`ban` entry via `add_punishment`, reply, log, spawn `schedule_unban`
(sleep `hours * 3600` seconds, then `unban_chat_member(only_if_banned)`),
and delete the command message. -/
def ban_command (cfg : Cfg) (m : MsgCtx) (args : List String)
    (db : Ledger) (now : Int) : Ledger × List Action :=
  if !(is_valid_admin_command cfg m) then (db, [])
  else if args.length < 3 then (db, [Action.reply, Action.deleteCommand])
  else
    match pyInt (args.headD ""), pyInt (args.getLastD "") with
    | some target, some duration =>
      let db1 := (add_punishment db now target (toString target) "ban"
        (joinReason args) duration m.fromFirstName).1
      (db1, [Action.banMember cfg.frontendChatId target, Action.reply,
             Action.sendMessage cfg.adminGroupId (some cfg.logsThreadId),
             Action.schedule RevKind.unban target (duration * 3600),
             Action.deleteCommand])
    | _, _ => (db, [Action.reply, Action.deleteCommand])

/-- The body of `schedule_unban` once the sleep elapses: a single
`unban_chat_member(..., only_if_banned=True)` call — a no-op when the
identity is no longer banned. -/
def schedule_unban_fire (cfg : Cfg) (uid : Int) : List Action :=
  [Action.unbanOnlyIfBanned cfg.frontendChatId uid]

/-- `/warn user_id reason days`: validate, append a `warn` entry via
`add_punishment`, reply, log, delete the command message. -/
def warn_command (cfg : Cfg) (m : MsgCtx) (args : List String)
    (db : Ledger) (now : Int) : Ledger × List Action :=
  if !(is_valid_admin_command cfg m) then (db, [])
  else if args.length < 3 then (db, [Action.reply, Action.deleteCommand])
  else
    match pyInt (args.headD ""), pyInt (args.getLastD "") with
    | some target, some duration =>
      let db1 := (add_punishment db now target (toString target) "warn"
        (joinReason args) duration m.fromFirstName).1
      (db1, [Action.reply,
             Action.sendMessage cfg.adminGroupId (some cfg.logsThreadId),
             Action.deleteCommand])
    | _, _ => (db, [Action.reply, Action.deleteCommand])

/-- `/unwarn user_id`: validate; if the identity is absent or has
`warns == 0`, reply that there is nothing to remove (no mutation);
otherwise decrement `warns`, pop the most recent `warn` entry, persist,
reply and log.  The command message is deleted in every branch. -/
def unwarn_command (cfg : Cfg) (m : MsgCtx) (args : List String)
    (db : Ledger) : Ledger × List Action :=
  if !(is_valid_admin_command cfg m) then (db, [])
  else
    match args with
    | [] => (db, [Action.reply, Action.deleteCommand])
    | a :: _ =>
      match pyInt a with
      | none => (db, [Action.reply, Action.deleteCommand])
      | some target =>
        let res := unwarn_core db target
        if res.2 then
          (res.1, [Action.reply,
                   Action.sendMessage cfg.adminGroupId (some cfg.logsThreadId),
                   Action.deleteCommand])
        else (res.1, [Action.reply, Action.deleteCommand])

/-- `/mute user_id reason minutes`: validate, restrict until
`now + minutes * 60`, append a `mute` entry, reply, log, delete the
command message. -/
def mute_command (cfg : Cfg) (m : MsgCtx) (args : List String)
    (db : Ledger) (now : Int) : Ledger × List Action :=
  if !(is_valid_admin_command cfg m) then (db, [])
  else if args.length < 3 then (db, [Action.reply, Action.deleteCommand])
  else
    match pyInt (args.headD ""), pyInt (args.getLastD "") with
    | some target, some duration =>
      let db1 := (add_punishment db now target (toString target) "mute"
        (joinReason args) duration m.fromFirstName).1
      (db1, [Action.restrict cfg.frontendChatId target (now + duration * 60),
             Action.reply,
             Action.sendMessage cfg.adminGroupId (some cfg.logsThreadId),
             Action.deleteCommand])
    | _, _ => (db, [Action.reply, Action.deleteCommand])

/-- `/unmute user_id`: validate, lift the restriction
(`can_send_messages=True`), reply, log, delete the command message.  The
ledger is never touched. -/
def unmute_command (cfg : Cfg) (m : MsgCtx) (args : List String)
    (db : Ledger) : Ledger × List Action :=
  if !(is_valid_admin_command cfg m) then (db, [])
  else
    match args with
    | [] => (db, [Action.reply, Action.deleteCommand])
    | a :: _ =>
      match pyInt a with
      | none => (db, [Action.reply, Action.deleteCommand])
      | some target =>
        (db, [Action.unrestrict cfg.frontendChatId target, Action.reply,
              Action.sendMessage cfg.adminGroupId (some cfg.logsThreadId),
              Action.deleteCommand])

/-- `links_command`: replies with the allow-list keyboard when sent in the
admin group's command topic; checks the chat and the topic but not whether
the sender is an administrator, and never mutates state. -/
def links_command (cfg : Cfg) (m : MsgCtx) (allowed : List (List Char)) :
    List Action :=
  if !(m.chatId == cfg.adminGroupId) || !(m.threadId == cfg.botThreadId) then
    []
  else [Action.reply]

/-- `links_callback`: handles every callback query (registered globally via
`CallbackQueryHandler` with no filter).  The issuer and origin parameters
are what an update carries; the code reads none of them.  On
`confirm|<url>` it DELETEs the url from `allowed_links` and reloads the
in-memory list; the other buttons only navigate.  Returns the resulting
allow-list. -/
def links_callback (isAdmin : Bool) (chatId threadId : Int)
    (data : List Char) (allowed : List (List Char)) : List (List Char) :=
  if data == "add_link".data then allowed
  else if "del|".data.isPrefixOf data then allowed
  else if "confirm|".data.isPrefixOf data then
    allowed.filter (fun u => !(u == data.drop 8))
  else allowed

/-- The command handlers registered in `__main__`. -/
def registered_commands : List String :=
  ["ban", "warn", "unwarn", "mute", "unmute", "help", "links"]

/-- Substring test used to state that a text contains no scheme prefix. -/
def containsSeq (pat : List Char) : List Char → Bool
  | [] => pat.isEmpty
  | c :: cs => pat.isPrefixOf (c :: cs) || containsSeq pat cs

/-- Modelled from the spec: resolve a URL to a bare hostname by stripping
the scheme and one leading `www.` label, and nothing else of the
hostname. -/
def spec_resolve (u : List Char) : List Char :=
  match urlHostname u with
  | 'w' :: 'w' :: 'w' :: '.' :: rest => rest
  | h => h

/-- Modelled from the spec: report a link violation iff some URL-like
substring resolves (per `spec_resolve`) to a hostname absent from the
allow-list. -/
def spec_classify_text (allowed : List (List Char)) (text : List Char) :
    Bool :=
  (findall_urls text).any (fun u => !(allowed.contains (spec_resolve u)))

/-- Modelled from the spec: the extension is the substring after the last
dot (empty if the filename has no dot), compared case-insensitively with
the allow-list; violation iff absent. -/
def spec_classify_attachment (exts : List (List Char)) (name : List Char) :
    Bool :=
  let ext := if name.contains '.' then (afterLastDot name).map Char.toLower
             else []
  !((exts.map (fun e => e.map Char.toLower)).contains ext)

/-! ## Properties -/

theorem get_user_eq_user_id {db : Ledger} {uid : Int} {u : UserRec}
    (h : get_user db uid = some u) : u.user_id = uid := by
  have := List.find?_some h
  simpa using this

theorem get_user_mem {db : Ledger} {uid : Int} {u : UserRec}
    (h : get_user db uid = some u) : u ∈ db :=
  List.mem_of_find?_eq_some h

theorem get_user_update_self {db : Ledger} {uid : Int} {r : UserRec}
    (u : UserRec) (h : get_user db uid = some r) (hu : u.user_id = uid) :
    get_user (update_user_record db u) uid = some u := by
  induction db with
  | nil => simp [get_user] at h
  | cons a db ih =>
    by_cases ha : a.user_id = uid
    · simp [get_user, update_user_record, List.find?_cons, ha, hu]
    · have h' : get_user db uid = some r := by
        simpa [get_user, List.find?_cons, ha] using h
      have hau : ¬ a.user_id = u.user_id := by rw [hu]; exact ha
      simpa [get_user, update_user_record, List.find?_cons, ha, hau]
        using ih h'

theorem get_user_update_other {db : Ledger} (u : UserRec) {uid : Int}
    (h : ¬ uid = u.user_id) :
    get_user (update_user_record db u) uid = get_user db uid := by
  induction db with
  | nil => rfl
  | cons a db ih =>
    simp only [get_user, update_user_record, List.map_cons] at ih ⊢
    by_cases ha : a.user_id = u.user_id
    · have h1 : (u.user_id == uid) = false := by
        have hne : ¬ u.user_id = uid := fun hh => h hh.symm
        simp [hne]
      have h2 : (a.user_id == uid) = false := by rw [ha]; exact h1
      have h3 : (a.user_id == u.user_id) = true := by simp [ha]
      simp only [h3, if_true, List.find?_cons, h1, h2]
      exact ih
    · have h3 : (a.user_id == u.user_id) = false := by simp [ha]
      simp only [h3, Bool.false_eq_true, if_false, List.find?_cons]
      cases hb : (a.user_id == uid) with
      | true => rfl
      | false => exact ih

theorem get_user_append_of_none {db : Ledger} {uid : Int}
    (h : get_user db uid = none) (l : Ledger) :
    get_user (db ++ l) uid = get_user l uid := by
  induction db with
  | nil => rfl
  | cons a db ih =>
    by_cases ha : a.user_id = uid
    · simp [get_user, List.find?_cons, ha] at h
    · have h' : get_user db uid = none := by
        simpa [get_user, List.find?_cons, ha] using h
      simpa [get_user, List.find?_cons, ha] using ih h'

theorem get_user_create_absent {db : Ledger} {uid : Int}
    {aliasName : String} {now : Int} (h : get_user db uid = none) :
    get_user (create_user db uid aliasName now) uid =
      some (freshUser uid aliasName now) := by
  have hs : (get_user db uid).isSome = false := by simp [h]
  simp only [create_user, hs, Bool.false_eq_true, if_false]
  rw [get_user_append_of_none h]
  simp [get_user, freshUser, List.find?_cons]

theorem create_user_present {db : Ledger} {uid : Int}
    {aliasName : String} {now : Int} (h : (get_user db uid).isSome = true) :
    create_user db uid aliasName now = db := by
  simp [create_user, h]

theorem add_punishment_fst (db : Ledger) (now uid : Int)
    (aliasName p_type reason : String) (duration : Int) (issued_by : String) :
    (add_punishment db now uid aliasName p_type reason duration issued_by).1 =
      update_user_record (punishBase db uid aliasName now)
        (add_punishment db now uid aliasName p_type reason duration
          issued_by).2 := rfl

theorem get_user_punishBase (db : Ledger) (uid : Int)
    (aliasName : String) (now : Int) :
    get_user (punishBase db uid aliasName now) uid =
      some ((get_user db uid).getD (freshUser uid aliasName now)) := by
  cases hget : get_user db uid with
  | some r => simp [punishBase, hget]
  | none =>
    have hc := @get_user_create_absent db uid aliasName now hget
    simp [punishBase, hget, hc]

theorem add_punishment_snd_user_id (db : Ledger) (now uid : Int)
    (aliasName p_type reason : String) (duration : Int) (issued_by : String) :
    (add_punishment db now uid aliasName p_type reason duration
      issued_by).2.user_id = uid := by
  have hb := get_user_punishBase db uid aliasName now
  have hid : ((get_user db uid).getD (freshUser uid aliasName now)).user_id
      = uid := by
    cases hget : get_user db uid with
    | some r => simpa using get_user_eq_user_id hget
    | none => simp [freshUser]
  simp only [add_punishment, punishBase] at hb ⊢
  simp only [hb, Option.getD_some]
  by_cases hw : p_type = "warn"
  · simp [hw, hid]
  · by_cases hban : p_type = "ban"
    · simp [hw, hban, hid]
    · simp [hw, hban, hid]

theorem add_punishment_snd_history (db : Ledger) (now uid : Int)
    (aliasName p_type reason : String) (duration : Int) (issued_by : String) :
    (add_punishment db now uid aliasName p_type reason duration
      issued_by).2.history =
      historyOf db uid ++ [mkEntry now p_type reason duration issued_by] := by
  have hb := get_user_punishBase db uid aliasName now
  have hh : ((get_user db uid).getD (freshUser uid aliasName now)).history
      = historyOf db uid := by
    cases hget : get_user db uid with
    | some r => simp [hget, historyOf]
    | none => simp [hget, historyOf, freshUser]
  simp only [add_punishment, punishBase] at hb ⊢
  simp only [hb, Option.getD_some]
  by_cases hw : p_type = "warn"
  · simp [hw, hh]
  · by_cases hban : p_type = "ban"
    · simp [hw, hban, hh]
    · simp [hw, hban, hh]

theorem add_punishment_snd_warns (db : Ledger) (now uid : Int)
    (aliasName p_type reason : String) (duration : Int) (issued_by : String) :
    (add_punishment db now uid aliasName p_type reason duration
      issued_by).2.warns =
      (if (p_type == "warn") = true then warnsOf db uid + 1
       else warnsOf db uid) := by
  have hb := get_user_punishBase db uid aliasName now
  have hh : ((get_user db uid).getD (freshUser uid aliasName now)).warns
      = warnsOf db uid := by
    cases hget : get_user db uid with
    | some r => simp [hget, warnsOf]
    | none => simp [hget, warnsOf, freshUser]
  simp only [add_punishment, punishBase] at hb ⊢
  simp only [hb, Option.getD_some]
  by_cases hw : p_type = "warn"
  · simp [hw, hh]
  · by_cases hban : p_type = "ban"
    · simp [hw, hban, hh]
    · simp [hw, hban, hh]

theorem add_punishment_snd_bans (db : Ledger) (now uid : Int)
    (aliasName p_type reason : String) (duration : Int) (issued_by : String) :
    (add_punishment db now uid aliasName p_type reason duration
      issued_by).2.bans =
      (if (p_type == "ban") = true then bansOf db uid + 1
       else bansOf db uid) := by
  have hb := get_user_punishBase db uid aliasName now
  have hh : ((get_user db uid).getD (freshUser uid aliasName now)).bans
      = bansOf db uid := by
    cases hget : get_user db uid with
    | some r => simp [hget, bansOf]
    | none => simp [hget, bansOf, freshUser]
  simp only [add_punishment, punishBase] at hb ⊢
  simp only [hb, Option.getD_some]
  by_cases hw : p_type = "warn"
  · have hban : ¬ p_type = "ban" := by simp [hw]
    simp [hw, hban, hh]
  · by_cases hban : p_type = "ban"
    · simp [hw, hban, hh]
    · simp [hw, hban, hh]

theorem add_punishment_get (db : Ledger) (now uid : Int)
    (aliasName p_type reason : String) (duration : Int) (issued_by : String) :
    get_user (add_punishment db now uid aliasName p_type reason duration
        issued_by).1 uid =
      some (add_punishment db now uid aliasName p_type reason duration
        issued_by).2 := by
  rw [add_punishment_fst]
  exact get_user_update_self _ (get_user_punishBase db uid aliasName now)
    (add_punishment_snd_user_id db now uid aliasName p_type reason duration
      issued_by)

theorem add_punishment_historyOf (db : Ledger) (now uid : Int)
    (aliasName p_type reason : String) (duration : Int) (issued_by : String) :
    historyOf (add_punishment db now uid aliasName p_type reason duration
        issued_by).1 uid =
      historyOf db uid ++ [mkEntry now p_type reason duration issued_by] := by
  rw [historyOf, add_punishment_get]
  exact add_punishment_snd_history db now uid aliasName p_type reason duration
    issued_by

theorem add_punishment_warnsOf (db : Ledger) (now uid : Int)
    (aliasName p_type reason : String) (duration : Int) (issued_by : String) :
    warnsOf (add_punishment db now uid aliasName p_type reason duration
        issued_by).1 uid =
      (if (p_type == "warn") = true then warnsOf db uid + 1
       else warnsOf db uid) := by
  rw [warnsOf, add_punishment_get]
  exact add_punishment_snd_warns db now uid aliasName p_type reason duration
    issued_by

theorem add_punishment_bansOf (db : Ledger) (now uid : Int)
    (aliasName p_type reason : String) (duration : Int) (issued_by : String) :
    bansOf (add_punishment db now uid aliasName p_type reason duration
        issued_by).1 uid =
      (if (p_type == "ban") = true then bansOf db uid + 1
       else bansOf db uid) := by
  rw [bansOf, add_punishment_get]
  exact add_punishment_snd_bans db now uid aliasName p_type reason duration
    issued_by

theorem countWarns_append (h : List Entry) (e : Entry) :
    countWarns (h ++ [e]) =
      countWarns h + (if isWarn e = true then 1 else 0) := by
  by_cases he : isWarn e = true
  · simp [countWarns, List.filter_append, he]
  · simp [countWarns, List.filter_append, he]

theorem countWarns_reverse (h : List Entry) :
    countWarns h.reverse = countWarns h := by
  simp [countWarns, List.filter_reverse]

theorem removeFirstWarn_count {h : List Entry}
    (hc : 1 ≤ countWarns h) :
    countWarns (removeFirstWarn h) = countWarns h - 1 := by
  induction h with
  | nil => simp [countWarns] at hc
  | cons e es ih =>
    by_cases he : isWarn e = true
    · simp [removeFirstWarn, countWarns, he, List.filter_cons]
    · have hc' : 1 ≤ countWarns es := by
        simpa [countWarns, List.filter_cons, he] using hc
      have hrec := ih hc'
      simp only [removeFirstWarn, he, Bool.false_eq_true, if_false]
      simp [countWarns, List.filter_cons, he] at hrec ⊢
      omega

theorem removeLastWarn_count {h : List Entry} (hc : 1 ≤ countWarns h) :
    countWarns (removeLastWarn h) = countWarns h - 1 := by
  have hr : 1 ≤ countWarns h.reverse := by rwa [countWarns_reverse]
  rw [removeLastWarn, countWarns_reverse, removeFirstWarn_count hr,
    countWarns_reverse]

/-- `removeFirstWarn` removes exactly the first warn entry, when one exists. -/
theorem removeFirstWarn_split {h : List Entry} (hc : 1 ≤ countWarns h) :
    ∃ a w b, h = a ++ w :: b ∧ isWarn w = true ∧
      (∀ e ∈ a, isWarn e = false) ∧ removeFirstWarn h = a ++ b := by
  induction h with
  | nil => simp [countWarns] at hc
  | cons e es ih =>
    by_cases he : isWarn e = true
    · exact ⟨[], e, es, by simp, he, by simp, by simp [removeFirstWarn, he]⟩
    · have hc' : 1 ≤ countWarns es := by
        simpa [countWarns, List.filter_cons, he] using hc
      obtain ⟨a, w, b, h1, h2, h3, h4⟩ := ih hc'
      refine ⟨e :: a, w, b, by simp [h1], h2, ?_, ?_⟩
      · intro x hx
        rcases List.mem_cons.mp hx with hx | hx
        · subst hx
          simpa using he
        · exact h3 x hx
      · simp [removeFirstWarn, he, h4]

/-- `removeLastWarn` removes exactly the most recent warn entry, when one
exists: the history splits as `pre ++ [w] ++ post` with `w` a warn, no warn
in `post`, and the result is `pre ++ post`. -/
theorem removeLastWarn_split {h : List Entry} (hc : 1 ≤ countWarns h) :
    ∃ pre w post, h = pre ++ w :: post ∧ isWarn w = true ∧
      (∀ e ∈ post, isWarn e = false) ∧ removeLastWarn h = pre ++ post := by
  have hr : 1 ≤ countWarns h.reverse := by rwa [countWarns_reverse]
  obtain ⟨a, w, b, h1, h2, h3, h4⟩ := removeFirstWarn_split hr
  refine ⟨b.reverse, w, a.reverse, ?_, h2, ?_, ?_⟩
  · have := congrArg List.reverse h1
    simpa [List.reverse_append] using this
  · intro x hx
    exact h3 x (List.mem_reverse.mp hx)
  · rw [removeLastWarn, h4]
    simp [List.reverse_append]

theorem LedgerInv_update {db : Ledger} {u : UserRec}
    (hdb : LedgerInv db) (hu : WarnInv u) :
    LedgerInv (update_user_record db u) := by
  intro r hr
  simp only [update_user_record] at hr
  obtain ⟨a, ha, rfl⟩ := List.mem_map.mp hr
  by_cases hc : a.user_id = u.user_id
  · simpa [hc] using hu
  · simpa [hc] using hdb a ha

theorem LedgerInv_create {db : Ledger} (hdb : LedgerInv db)
    (uid : Int) (aliasName : String) (now : Int) :
    LedgerInv (create_user db uid aliasName now) := by
  intro r hr
  simp only [create_user] at hr
  by_cases hs : (get_user db uid).isSome = true
  · rw [if_pos hs] at hr
    exact hdb r hr
  · rw [if_neg hs] at hr
    rcases List.mem_append.mp hr with hr | hr
    · exact hdb r hr
    · have : r = freshUser uid aliasName now := by simpa using hr
      subst this
      simp [WarnInv, freshUser, countWarns]

theorem WarnInv_getD {db : Ledger} (hdb : LedgerInv db) (uid : Int)
    (aliasName : String) (now : Int) :
    WarnInv ((get_user db uid).getD (freshUser uid aliasName now)) := by
  cases hget : get_user db uid with
  | some r => simpa using hdb r (get_user_mem hget)
  | none => simp [WarnInv, freshUser, countWarns]

theorem LedgerInv_add_punishment {db : Ledger} (hdb : LedgerInv db)
    (now uid : Int) (aliasName p_type reason : String) (duration : Int)
    (issued_by : String) :
    LedgerInv (add_punishment db now uid aliasName p_type reason duration
      issued_by).1 := by
  rw [add_punishment_fst]
  have hbase : LedgerInv (punishBase db uid aliasName now) := by
    unfold punishBase
    by_cases hs : (get_user db uid).isSome = true
    · simpa [hs] using hdb
    · simpa [hs] using LedgerInv_create hdb uid aliasName now
  refine LedgerInv_update hbase ?_
  have hprior := WarnInv_getD hdb uid aliasName now
  have hw := add_punishment_snd_warns db now uid aliasName p_type reason
    duration issued_by
  have hh := add_punishment_snd_history db now uid aliasName p_type reason
    duration issued_by
  have hwarns : warnsOf db uid =
      (countWarns (historyOf db uid) : Int) := by
    cases hget : get_user db uid with
    | some r =>
      have := hdb r (get_user_mem hget)
      simpa [warnsOf, historyOf, hget, WarnInv] using this
    | none => simp [warnsOf, historyOf, hget, countWarns]
  rw [WarnInv, hw, hh, countWarns_append]
  by_cases hp : (p_type == "warn") = true
  · have he : isWarn (mkEntry now p_type reason duration issued_by) = true := by
      simp [isWarn, mkEntry, hp]
    rw [if_pos hp, if_pos he, hwarns]
    push_cast
    ring
  · have he : isWarn (mkEntry now p_type reason duration issued_by) = false := by
      simpa [isWarn, mkEntry] using hp
    rw [if_neg hp, if_neg (by simp [he]), hwarns]
    push_cast
    ring

theorem LedgerInv_unwarn {db : Ledger} (hdb : LedgerInv db) (uid : Int) :
    LedgerInv (unwarn_core db uid).1 := by
  unfold unwarn_core
  cases hget : get_user db uid with
  | none => simpa using hdb
  | some r =>
    by_cases hz : (r.warns == 0) = true
    · simpa [hz] using hdb
    · have hinv : WarnInv r := hdb r (get_user_mem hget)
      have hnz : ¬ r.warns = 0 := by simpa using hz
      have hc : 1 ≤ countWarns r.history := by
        rw [WarnInv] at hinv
        omega
      simp only [hz, Bool.false_eq_true, if_false]
      refine LedgerInv_update hdb ?_
      rw [WarnInv] at hinv ⊢
      simp only
      rw [removeLastWarn_count hc]
      omega

theorem LedgerInv_applyMut {db : Ledger} (hdb : LedgerInv db) (m : Mut) :
    LedgerInv (applyMut db m) := by
  cases m with
  | punish now uid aliasName p_type reason duration issued_by =>
    exact LedgerInv_add_punishment hdb now uid aliasName p_type reason
      duration issued_by
  | unwarn uid => exact LedgerInv_unwarn hdb uid

theorem LedgerInv_foldl {db : Ledger} (hdb : LedgerInv db) (ms : List Mut) :
    LedgerInv (ms.foldl applyMut db) := by
  induction ms generalizing db with
  | nil => simpa using hdb
  | cons m ms ih => exact ih (LedgerInv_applyMut hdb m)

/-- C1: for every inbound violating content event, an identity with
`warns = 0` (or an absent row) gets exactly one `warn` entry of duration 0
appended and no send-restriction action is issued; an identity with
`warns >= 1` gets exactly one `mute` entry of duration 60 appended and a
send-restriction until `now + 60` minutes is issued. -/
theorem process_violation_two_tier (cfg : Cfg) (db : Ledger) (now : Int)
    (chatId uid : Int) (aliasName reason : String) :
    (warnsOf db uid = 0 →
      historyOf (process_violation cfg db now chatId uid aliasName
          reason).1 uid =
        historyOf db uid ++ [mkEntry now "warn" reason 0 "bot"] ∧
      (process_violation cfg db now chatId uid aliasName reason).2.all
        (fun a => !a.isRestrict) = true) ∧
    (1 ≤ warnsOf db uid →
      historyOf (process_violation cfg db now chatId uid aliasName
          reason).1 uid =
        historyOf db uid ++ [mkEntry now "mute" reason 60 "bot"] ∧
      Action.restrict chatId uid (now + 3600) ∈
        (process_violation cfg db now chatId uid aliasName reason).2) := by
  constructor
  · intro h0
    have hz : (warnsOf db uid == 0) = true := by simp [h0]
    constructor
    · simp only [process_violation, hz, if_true]
      exact add_punishment_historyOf db now uid aliasName "warn" reason 0
        "bot"
    · simp [process_violation, hz, Action.isRestrict]
  · intro h1
    have hz : (warnsOf db uid == 0) = false := by
      have : ¬ warnsOf db uid = 0 := by omega
      simp [this]
    constructor
    · simp only [process_violation, hz, Bool.false_eq_true, if_false]
      exact add_punishment_historyOf db now uid aliasName "mute" reason 60
        "bot"
    · simp [process_violation, hz]

theorem process_violation_two_tier_witness :
    (historyOf (process_violation ⟨1, 2, 3, 4⟩ [] 100 5 42 "a" "r").1 42 =
        historyOf ([] : Ledger) 42 ++ [mkEntry 100 "warn" "r" 0 "bot"] ∧
      (process_violation ⟨1, 2, 3, 4⟩ [] 100 5 42 "a" "r").2.all
        (fun a => !a.isRestrict) = true) ∧
    (historyOf (process_violation ⟨1, 2, 3, 4⟩
          [⟨42, 0, "a", 1, 0, [mkEntry 0 "warn" "x" 0 "bot"]⟩]
          100 5 42 "a" "r").1 42 =
        historyOf ([⟨42, 0, "a", 1, 0, [mkEntry 0 "warn" "x" 0 "bot"]⟩] :
          Ledger) 42 ++ [mkEntry 100 "mute" "r" 60 "bot"] ∧
      Action.restrict 5 42 (100 + 3600) ∈
        (process_violation ⟨1, 2, 3, 4⟩
          [⟨42, 0, "a", 1, 0, [mkEntry 0 "warn" "x" 0 "bot"]⟩]
          100 5 42 "a" "r").2) :=
  ⟨(process_violation_two_tier ⟨1, 2, 3, 4⟩ [] 100 5 42 "a" "r").1
      (by decide),
   (process_violation_two_tier ⟨1, 2, 3, 4⟩
      [⟨42, 0, "a", 1, 0, [mkEntry 0 "warn" "x" 0 "bot"]⟩]
      100 5 42 "a" "r").2 (by decide)⟩

/-- C2: starting from any users table satisfying the warn-counter
invariant (in particular from the empty one), every sequence of the
program's ledger mutations (`add_punishment` of any kind, `unwarn`
removal) preserves it: for every row, `warns` equals the number of
warn-kind entries in `history`. -/
theorem warn_counter_invariant (db : Ledger) (ms : List Mut)
    (hdb : LedgerInv db) : LedgerInv (ms.foldl applyMut db) :=
  LedgerInv_foldl hdb ms

theorem warn_counter_invariant_witness :
    LedgerInv (([Mut.punish 5 42 "a" "warn" "r" 0 "bot",
      Mut.punish 6 42 "a" "mute" "r" 60 "bot",
      Mut.punish 7 42 "a" "ban" "r" 24 "adm",
      Mut.unwarn 42, Mut.unwarn 42] : List Mut).foldl applyMut []) :=
  warn_counter_invariant []
    [Mut.punish 5 42 "a" "warn" "r" 0 "bot",
     Mut.punish 6 42 "a" "mute" "r" 60 "bot",
     Mut.punish 7 42 "a" "ban" "r" 24 "adm",
     Mut.unwarn 42, Mut.unwarn 42] (by decide)

/-- C3 counterexample: for an identity with `warns = 1` the mute branch of
`process_violation` runs (the entry is appended and the restriction until
`now + 3600` seconds is issued), yet the emitted actions contain no
Scheduled Expiry at all — contradicting the claim that an `unmute` expiry
firing at `now + 60` minutes is registered for every automatic mute. -/
theorem auto_mute_no_expiry_counterexample :
    warnsOf [⟨42, 0, "a", 1, 0, [mkEntry 0 "warn" "x" 0 "bot"]⟩] 42 = 1 ∧
    (process_violation ⟨1, 2, 3, 4⟩
        [⟨42, 0, "a", 1, 0, [mkEntry 0 "warn" "x" 0 "bot"]⟩]
        1000 7 42 "a" "r").2.all (fun a => !a.isSchedule) = true ∧
    Action.restrict 7 42 (1000 + 3600) ∈
      (process_violation ⟨1, 2, 3, 4⟩
        [⟨42, 0, "a", 1, 0, [mkEntry 0 "warn" "x" 0 "bot"]⟩]
        1000 7 42 "a" "r").2 := by decide

/-- C3 (amended): every automatic mute deletes the content, appends the
`mute` entry of duration 60, applies the send-restriction until `now + 60`
minutes and notifies the offender, but registers no Scheduled Expiry — the
restriction simply carries `until_date`, so its expiry is delegated to the
platform rather than to a scheduled `unmute` task of the bot. -/
theorem auto_mute_outcome (cfg : Cfg) (db : Ledger)
    (now chatId uid : Int) (aliasName reason : String)
    (h : ¬ warnsOf db uid = 0) :
    historyOf (process_violation cfg db now chatId uid aliasName
        reason).1 uid =
      historyOf db uid ++ [mkEntry now "mute" reason 60 "bot"] ∧
    Action.deleteMessage ∈
      (process_violation cfg db now chatId uid aliasName reason).2 ∧
    Action.restrict chatId uid (now + 3600) ∈
      (process_violation cfg db now chatId uid aliasName reason).2 ∧
    Action.sendMessage chatId none ∈
      (process_violation cfg db now chatId uid aliasName reason).2 ∧
    (process_violation cfg db now chatId uid aliasName reason).2.all
      (fun a => !a.isSchedule) = true := by
  have hz : (warnsOf db uid == 0) = false := by simp [h]
  refine ⟨?_, ?_, ?_, ?_, ?_⟩
  · simp only [process_violation, hz, Bool.false_eq_true, if_false]
    exact add_punishment_historyOf db now uid aliasName "mute" reason 60
      "bot"
  · simp [process_violation, hz]
  · simp [process_violation, hz]
  · simp [process_violation, hz]
  · simp [process_violation, hz, Action.isSchedule]

theorem auto_mute_outcome_witness :
    historyOf (process_violation ⟨1, 2, 3, 4⟩
        [⟨42, 0, "a", 1, 0, [mkEntry 0 "warn" "x" 0 "bot"]⟩]
        1000 7 42 "a" "r").1 42 =
      historyOf ([⟨42, 0, "a", 1, 0, [mkEntry 0 "warn" "x" 0 "bot"]⟩] :
        Ledger) 42 ++ [mkEntry 1000 "mute" "r" 60 "bot"] ∧
    Action.deleteMessage ∈
      (process_violation ⟨1, 2, 3, 4⟩
        [⟨42, 0, "a", 1, 0, [mkEntry 0 "warn" "x" 0 "bot"]⟩]
        1000 7 42 "a" "r").2 ∧
    Action.restrict 7 42 (1000 + 3600) ∈
      (process_violation ⟨1, 2, 3, 4⟩
        [⟨42, 0, "a", 1, 0, [mkEntry 0 "warn" "x" 0 "bot"]⟩]
        1000 7 42 "a" "r").2 ∧
    Action.sendMessage 7 none ∈
      (process_violation ⟨1, 2, 3, 4⟩
        [⟨42, 0, "a", 1, 0, [mkEntry 0 "warn" "x" 0 "bot"]⟩]
        1000 7 42 "a" "r").2 ∧
    (process_violation ⟨1, 2, 3, 4⟩
        [⟨42, 0, "a", 1, 0, [mkEntry 0 "warn" "x" 0 "bot"]⟩]
        1000 7 42 "a" "r").2.all (fun a => !a.isSchedule) = true :=
  auto_mute_outcome ⟨1, 2, 3, 4⟩
    [⟨42, 0, "a", 1, 0, [mkEntry 0 "warn" "x" 0 "bot"]⟩]
    1000 7 42 "a" "r" (by decide)

/-- C4: `/unwarn` on an absent identity or one with `warns = 0` replies
"nothing to remove" and performs no ledger mutation; with `warns >= 1`
(under the warn-counter invariant) it decrements `warns` by exactly one and
removes exactly the most recently issued warn-kind entry — the history
splits as `pre ++ [w] ++ post` with no warn in `post`, the new history is
`pre ++ post`, and every other identity's row is untouched. -/
theorem unwarn_notfound_and_lifo (cfg : Cfg) (m : MsgCtx) (s : String)
    (target : Int) (db : Ledger)
    (hadm : is_valid_admin_command cfg m = true)
    (hp : pyInt s = some target) :
    (get_user db target = none →
      unwarn_command cfg m [s] db =
        (db, [Action.reply, Action.deleteCommand])) ∧
    (∀ r, get_user db target = some r → r.warns = 0 →
      unwarn_command cfg m [s] db =
        (db, [Action.reply, Action.deleteCommand])) ∧
    (∀ r, get_user db target = some r → 1 ≤ r.warns → WarnInv r →
      ∃ pre w post,
        r.history = pre ++ w :: post ∧ isWarn w = true ∧
        (∀ e ∈ post, isWarn e = false) ∧
        get_user (unwarn_command cfg m [s] db).1 target =
          some { r with warns := r.warns - 1, history := pre ++ post } ∧
        (∀ uid2, ¬ uid2 = target →
          get_user (unwarn_command cfg m [s] db).1 uid2 =
            get_user db uid2)) := by
  refine ⟨?_, ?_, ?_⟩
  · intro hnone
    simp [unwarn_command, hadm, hp, unwarn_core, hnone]
  · intro r hr hz
    simp [unwarn_command, hadm, hp, unwarn_core, hr, hz]
  · intro r hr h1 hinv
    have hid : r.user_id = target := get_user_eq_user_id hr
    have hz : (r.warns == 0) = false := by
      have : ¬ r.warns = 0 := by omega
      simp [this]
    have hc : 1 ≤ countWarns r.history := by
      rw [WarnInv] at hinv
      omega
    obtain ⟨pre, w, post, hsplit, hw, hpost, hrem⟩ := removeLastWarn_split hc
    refine ⟨pre, w, post, hsplit, hw, hpost, ?_, ?_⟩
    · have hred : (unwarn_command cfg m [s] db).1 =
          update_user_record db
            { r with warns := r.warns - 1, history := pre ++ post } := by
        simp [unwarn_command, hadm, hp, unwarn_core, hr, hz, hrem]
      rw [hred]
      exact get_user_update_self _ hr (by simp [hid])
    · intro uid2 hne
      have hred : (unwarn_command cfg m [s] db).1 =
          update_user_record db
            { r with warns := r.warns - 1, history := pre ++ post } := by
        simp [unwarn_command, hadm, hp, unwarn_core, hr, hz, hrem]
      rw [hred]
      exact get_user_update_other _ (by simp [hid, hne])

theorem unwarn_notfound_and_lifo_witness :
    get_user (unwarn_command ⟨1, 2, 3, 4⟩ ⟨2, 3, true, "adm"⟩ ["42"]
        [⟨42, 0, "a", 1, 0, [mkEntry 3 "warn" "x" 0 "bot"]⟩]).1 42 =
      some ⟨42, 0, "a", 0, 0, []⟩ := by
  obtain ⟨pre, w, post, hsplit, hw, hpost, hget, hoth⟩ :=
    (unwarn_notfound_and_lifo ⟨1, 2, 3, 4⟩ ⟨2, 3, true, "adm"⟩ "42" 42
      [⟨42, 0, "a", 1, 0, [mkEntry 3 "warn" "x" 0 "bot"]⟩]
      (by decide) (by decide)).2.2
      ⟨42, 0, "a", 1, 0, [mkEntry 3 "warn" "x" 0 "bot"]⟩
      (by decide) (by decide) (by decide)
  have hlen := congrArg List.length hsplit
  simp at hlen
  have hpre : pre = [] := List.length_eq_zero.mp (by omega)
  have hpost2 : post = [] := List.length_eq_zero.mp (by omega)
  rw [hget, hpre, hpost2]
  decide
/-! ### C5 / C10: link classifier lemmas -/

theorem isPrefixOf_append {a b : List Char} :
    a.isPrefixOf (a ++ b) = true := by
  induction a with
  | nil => simp [List.isPrefixOf]
  | cons x xs ih => simp [List.isPrefixOf, ih]

theorem matchScheme_split {l : List Char} {p : List Char × List Char}
    (h : matchScheme l = some p) :
    l = p.1 ++ p.2 ∧
      (p.1 = ['h', 't', 't', 'p', ':', '/', '/'] ∨
       p.1 = ['h', 't', 't', 'p', 's', ':', '/', '/']) := by
  unfold matchScheme at h
  split at h
  · cases h
    exact ⟨rfl, Or.inr rfl⟩
  · cases h
    exact ⟨rfl, Or.inl rfl⟩
  · exact absurd h (by simp)

theorem findall_go_eq_nil (fuel : Nat) (l : List Char)
    (h7 : containsSeq ['h', 't', 't', 'p', ':', '/', '/'] l = false)
    (h8 : containsSeq ['h', 't', 't', 'p', 's', ':', '/', '/'] l = false) :
    findall_go fuel l = [] := by
  induction fuel generalizing l with
  | zero => cases l <;> rfl
  | succ fuel ih =>
    cases l with
    | nil => rfl
    | cons c cs =>
      cases hm : matchScheme (c :: cs) with
      | some p =>
        obtain ⟨heq, hsch⟩ := matchScheme_split hm
        rcases hsch with hs | hs
        · have hpre : List.isPrefixOf ['h', 't', 't', 'p', ':', '/', '/']
              (c :: cs) = true := by
            rw [heq, ← hs]
            exact isPrefixOf_append
          have hcontr : containsSeq ['h', 't', 't', 'p', ':', '/', '/']
              (c :: cs) = true := by
            simp [containsSeq, hpre]
          rw [hcontr] at h7
          exact absurd h7 (by decide)
        · have hpre : List.isPrefixOf
              ['h', 't', 't', 'p', 's', ':', '/', '/'] (c :: cs) = true := by
            rw [heq, ← hs]
            exact isPrefixOf_append
          have hcontr : containsSeq ['h', 't', 't', 'p', 's', ':', '/', '/']
              (c :: cs) = true := by
            simp [containsSeq, hpre]
          rw [hcontr] at h8
          exact absurd h8 (by decide)
      | none =>
        have h7' : containsSeq ['h', 't', 't', 'p', ':', '/', '/'] cs
            = false := by
          rw [containsSeq] at h7
          exact (Bool.or_eq_false_iff.mp h7).2
        have h8' : containsSeq ['h', 't', 't', 'p', 's', ':', '/', '/'] cs
            = false := by
          rw [containsSeq] at h8
          exact (Bool.or_eq_false_iff.mp h8).2
        simp only [findall_go, hm]
        exact ih cs h7' h8'

theorem domains_go_eq_map (urls : List (List Char))
    (hv : ∀ u ∈ urls, validNetloc (urlNetloc u) = true) :
    domains_go urls =
      some (urls.map (fun u => stripWWW (urlHostname u))) := by
  induction urls with
  | nil => rfl
  | cons u us ih =>
    have hu := hv u (by simp)
    have hus : ∀ x ∈ us, validNetloc (urlNetloc x) = true :=
      fun x hx => hv x (by simp [hx])
    simp [domains_go, hu, ih hus]

theorem domains_go_empty {us ds : List (List Char)}
    (hd : domains_go us = some ds) (hh : ∀ u ∈ us, urlHostname u = []) :
    ∀ d ∈ ds, d = [] := by
  induction us generalizing ds with
  | nil =>
    simp only [domains_go, Option.some_inj] at hd
    subst hd
    simp
  | cons u us ih =>
    simp only [domains_go] at hd
    by_cases hv : validNetloc (urlNetloc u) = true
    · rw [if_pos hv] at hd
      cases hrec : domains_go us with
      | none => rw [hrec] at hd; exact absurd hd (by simp)
      | some ds2 =>
        rw [hrec] at hd
        simp only [Option.some_inj] at hd
        subst hd
        intro d hdm
        rcases List.mem_cons.mp hdm with hdm | hdm
        · subst hdm
          rw [hh u (by simp)]
          rfl
        · exact ih hrec (fun x hx => hh x (by simp [hx])) d hdm
    · rw [if_neg hv] at hd
      exact absurd hd (by simp)

/-- C5 counterexample: the code resolves `http://www.www.example.com` to
`example.com` (every occurrence of `"www."` is removed by `str.replace`,
not only a leading label), so with allow-list `{www.example.com}` it
reports a violation while the spec resolution (strip one leading `www.`
label only) yields `www.example.com`, which is allow-listed and clean. -/
theorem www_strip_counterexample :
    handle_message ["www.example.com".data]
        "http://www.www.example.com".data = true ∧
    spec_classify_text ["www.example.com".data]
        "http://www.www.example.com".data = false := by decide

/-- C5 (amended): for every text whose matched URLs all have a
bracket-valid netloc, the code resolves each matched URL to
`urlparse(u).hostname` (userinfo and port stripped, lowercased) with every
occurrence of the substring `"www."` removed, and reports a link violation
iff some such resolved hostname is nonempty and absent from the
allow-list; the verdict is an existential over the matched URLs, so the
order of URL discovery does not affect it. -/
theorem link_verdict_characterization (allowed : List (List Char))
    (text : List Char)
    (hv : ∀ u ∈ findall_urls text, validNetloc (urlNetloc u) = true) :
    handle_message allowed text = true ↔
      ∃ u ∈ findall_urls text,
        ¬ stripWWW (urlHostname u) = [] ∧
        ¬ stripWWW (urlHostname u) ∈ allowed := by
  rw [handle_message, extract_domains, domains_go_eq_map _ hv]
  simp [List.any_eq_true]

theorem link_verdict_characterization_witness :
    handle_message ["good.example".data]
      "see http://evil.example/x please".data = true :=
  (link_verdict_characterization ["good.example".data]
    "see http://evil.example/x please".data (by decide)).mpr
    ⟨"http://evil.example/x".data, by decide, by decide, by decide⟩

/-- C10: link detection is limited to substrings with an explicit
`http://` or `https://` scheme — a text containing neither scheme
substring is always clean, whatever hostnames it mentions bare; and when
every matched URL has an empty parsed hostname, the text is likewise
treated as clean and no violation is processed. -/
theorem scheme_only_link_detection (allowed : List (List Char))
    (text : List Char) :
    (containsSeq "http://".data text = false →
      containsSeq "https://".data text = false →
      handle_message allowed text = false) ∧
    ((∀ u ∈ findall_urls text, urlHostname u = []) →
      handle_message allowed text = false) := by
  constructor
  · intro h7 h8
    rw [handle_message, extract_domains, findall_urls,
      findall_go_eq_nil text.length text h7 h8]
    rfl
  · intro hh
    rw [handle_message, extract_domains]
    cases hd : domains_go (findall_urls text) with
    | none => rfl
    | some ds =>
      have hds := domains_go_empty hd hh
      have hany : ds.any (fun d => !d.isEmpty && !(allowed.contains d))
          = false := by
        rw [List.any_eq_false]
        intro d hdm
        simp [hds d hdm]
      exact hany

theorem scheme_only_link_detection_witness :
    handle_message ["good.example".data] "visit evil.example today".data
      = false ∧
    handle_message ["good.example".data] "go http:///evil now".data
      = false :=
  ⟨(scheme_only_link_detection ["good.example".data]
      "visit evil.example today".data).1 (by decide) (by decide),
   (scheme_only_link_detection ["good.example".data]
      "go http:///evil now".data).2 (by decide)⟩

theorem takeWhile_all {p : Char → Bool} {l : List Char}
    (h : ∀ x ∈ l, p x = true) : l.takeWhile p = l := by
  induction l with
  | nil => rfl
  | cons a l ih =>
    simp [List.takeWhile_cons, h a (by simp),
      ih (fun x hx => h x (by simp [hx]))]

theorem takeWhile_append_stop {p : Char → Bool} {l : List Char} (c : Char)
    (r : List Char) (h : ∀ x ∈ l, p x = true) (hc : p c = false) :
    (l ++ c :: r).takeWhile p = l := by
  induction l with
  | nil => simp [List.takeWhile_cons, hc]
  | cons a l ih =>
    simp [List.takeWhile_cons, h a (by simp),
      ih (fun x hx => h x (by simp [hx]))]

theorem beq_false_of_contains_false {l : List Char} {a : Char}
    (h : l.contains a = false) : ∀ x ∈ l, (x == a) = false := by
  intro x hx
  have hne : ¬ x = a := by
    intro he
    subst he
    simp [hx] at h
  simp [hne]

theorem basenameOf_no_slash {name : List Char}
    (h : ∀ x ∈ name, (x == '/') = false) : basenameOf name = name := by
  have h1 : name.reverse.takeWhile (fun c => !(c == '/')) = name.reverse :=
    takeWhile_all (fun x hx => by simp [h x (List.mem_reverse.mp hx)])
  rw [basenameOf, h1, List.reverse_reverse]

theorem pyLstripDot_no_dot {l : List Char}
    (h : ∀ x ∈ l, (x == '.') = false) : pyLstripDot l = l := by
  cases l with
  | nil => rfl
  | cons c cs =>
    have hcn : ¬ c = '.' := by simpa using h c (by simp)
    unfold pyLstripDot
    split
    · rename_i rest heq
      injection heq with h1 h2
      exact absurd h1 hcn
    · rfl

theorem afterLastDot_split {pre post : List Char}
    (hpd : ∀ x ∈ post, (x == '.') = false) :
    afterLastDot (pre ++ '.' :: post) = post := by
  have hrev : (pre ++ '.' :: post).reverse
      = post.reverse ++ '.' :: pre.reverse := by simp
  rw [afterLastDot, hrev,
    takeWhile_append_stop '.' pre.reverse
      (fun x hx => by simp [hpd x (List.mem_reverse.mp hx)]) (by simp),
    List.reverse_reverse]

theorem splitext_ext_split {pre post : List Char}
    (hpd : ∀ x ∈ post, (x == '.') = false)
    (hns : ∀ x ∈ pre ++ '.' :: post, (x == '/') = false) :
    splitext_ext (pre ++ '.' :: post) =
      (if pre.any (fun c => !(c == '.')) then '.' :: post else []) := by
  have hb := basenameOf_no_slash hns
  have hald := @afterLastDot_split pre post hpd
  have hcontains : (pre ++ '.' :: post).contains '.' = true := by simp
  have hlen : (pre ++ '.' :: post).length - post.length - 1 = pre.length := by
    simp only [List.length_append, List.length_cons]
    omega
  rw [splitext_ext]
  simp only [hb, hcontains, if_true, hald, hlen, List.take_left]

theorem splitext_ext_no_dot {name : List Char}
    (hnd : name.contains '.' = false)
    (hns : ∀ x ∈ name, (x == '/') = false) :
    splitext_ext name = [] := by
  rw [splitext_ext]
  simp only [basenameOf_no_slash hns, hnd, Bool.false_eq_true, if_false]

/-- C9 counterexample: for the dotfile `.exe`, `os.path.splitext` yields an
empty extension (leading dots of a basename never begin an extension), so
the code reports a violation even when `exe` is allow-listed, while the
claimed rule (substring after the last dot, case-insensitive) resolves the
extension to `exe` and reports the file clean. -/
theorem dotfile_ext_counterexample :
    handle_document ["exe".data] ".exe".data = true ∧
    spec_classify_attachment ["exe".data] ".exe".data = false := by decide

/-- C9 (amended): for a slash-free filename the code computes the
extension as `os.path.splitext` does — empty when the name has no dot and
also when every character before the last dot is itself a dot (dotfiles) —
then lowercases it and reports a file violation iff that string is not
literally present in the extension allow-list (allow-list entries are not
case-folded). -/
theorem attachment_ext_characterization (exts : List (List Char)) :
    (∀ name : List Char, name.contains '.' = false →
      name.contains '/' = false →
      handle_document exts name = !(exts.contains [])) ∧
    (∀ pre post : List Char, post.contains '.' = false →
      (pre ++ '.' :: post).contains '/' = false →
      pre.any (fun c => !(c == '.')) = true →
      handle_document exts (pre ++ '.' :: post) =
        !(exts.contains (post.map Char.toLower))) ∧
    (∀ pre post : List Char, post.contains '.' = false →
      (pre ++ '.' :: post).contains '/' = false →
      pre.any (fun c => !(c == '.')) = false →
      handle_document exts (pre ++ '.' :: post) = !(exts.contains [])) := by
  refine ⟨?_, ?_, ?_⟩
  · intro name hnd hns
    rw [handle_document,
      splitext_ext_no_dot hnd (beq_false_of_contains_false hns)]
    rfl
  · intro pre post hpd hns ha
    have hpd2 := beq_false_of_contains_false hpd
    have hns2 := beq_false_of_contains_false hns
    rw [handle_document, splitext_ext_split hpd2 hns2]
    simp only [ha, if_true]
    have hstrip : pyLstripDot ('.' :: post) = post := by
      have h1 : pyLstripDot ('.' :: post) = pyLstripDot post := rfl
      rw [h1, pyLstripDot_no_dot hpd2]
    rw [hstrip]
  · intro pre post hpd hns ha
    have hpd2 := beq_false_of_contains_false hpd
    have hns2 := beq_false_of_contains_false hns
    rw [handle_document, splitext_ext_split hpd2 hns2]
    simp only [ha, Bool.false_eq_true, if_false]
    rfl

theorem attachment_ext_characterization_witness :
    handle_document ["pdf".data] "notes".data = !(["pdf".data].contains []) ∧
    handle_document ["pdf".data] "a.PDF".data =
      !(["pdf".data].contains ("PDF".data.map Char.toLower)) ∧
    handle_document ["pdf".data] "..exe".data = !(["pdf".data].contains []) :=
  ⟨(attachment_ext_characterization ["pdf".data]).1 "notes".data (by decide)
      (by decide),
   (attachment_ext_characterization ["pdf".data]).2.1 "a".data "PDF".data
      (by decide) (by decide) (by decide),
   (attachment_ext_characterization ["pdf".data]).2.2 ".".data "exe".data
      (by decide) (by decide) (by decide)⟩

/-- C6: a `/ban id reason hours` command from a verified administrator in
the admin group's command topic appends exactly one `ban` entry with the
given duration to the target's history, increments the `bans` counter by
one, bans the member, and spawns exactly one scheduled unban task for that
identity with delay `hours * 3600` seconds, whose body performs a single
`only_if_banned` unban call (a no-op when the identity was already
unbanned out-of-band). -/
theorem ban_command_effects (cfg : Cfg) (m : MsgCtx) (args : List String)
    (db : Ledger) (now : Int) (target duration : Int)
    (hadm : is_valid_admin_command cfg m = true)
    (hlen : ¬ args.length < 3)
    (h0 : pyInt (args.headD "") = some target)
    (h1 : pyInt (args.getLastD "") = some duration) :
    historyOf (ban_command cfg m args db now).1 target =
      historyOf db target ++
        [mkEntry now "ban" (joinReason args) duration m.fromFirstName] ∧
    bansOf (ban_command cfg m args db now).1 target =
      bansOf db target + 1 ∧
    Action.banMember cfg.frontendChatId target ∈
      (ban_command cfg m args db now).2 ∧
    (ban_command cfg m args db now).2.filter (fun a => a.isSchedule) =
      [Action.schedule RevKind.unban target (duration * 3600)] ∧
    schedule_unban_fire cfg target =
      [Action.unbanOnlyIfBanned cfg.frontendChatId target] := by
  have hred : ban_command cfg m args db now =
      ((add_punishment db now target (toString target) "ban"
          (joinReason args) duration m.fromFirstName).1,
       [Action.banMember cfg.frontendChatId target, Action.reply,
        Action.sendMessage cfg.adminGroupId (some cfg.logsThreadId),
        Action.schedule RevKind.unban target (duration * 3600),
        Action.deleteCommand]) := by
    unfold ban_command
    rw [hadm]
    rw [if_neg (show ¬ ((!true) = true) by simp)]
    rw [if_neg hlen, h0, h1]
  rw [hred]
  refine ⟨?_, ?_, ?_, ?_, rfl⟩
  · exact add_punishment_historyOf db now target (toString target) "ban"
      (joinReason args) duration m.fromFirstName
  · rw [add_punishment_bansOf db now target (toString target) "ban"
      (joinReason args) duration m.fromFirstName]
    simp
  · simp
  · simp [List.filter, Action.isSchedule]

theorem ban_command_effects_witness :
    historyOf (ban_command ⟨1, 2, 3, 4⟩ ⟨2, 3, true, "adm"⟩
        ["42", "spam", "24"] [] 500).1 42 =
      historyOf ([] : Ledger) 42 ++
        [mkEntry 500 "ban" (joinReason ["42", "spam", "24"]) 24 "adm"] ∧
    bansOf (ban_command ⟨1, 2, 3, 4⟩ ⟨2, 3, true, "adm"⟩
        ["42", "spam", "24"] [] 500).1 42 =
      bansOf ([] : Ledger) 42 + 1 ∧
    Action.banMember 1 42 ∈
      (ban_command ⟨1, 2, 3, 4⟩ ⟨2, 3, true, "adm"⟩
        ["42", "spam", "24"] [] 500).2 ∧
    (ban_command ⟨1, 2, 3, 4⟩ ⟨2, 3, true, "adm"⟩
        ["42", "spam", "24"] [] 500).2.filter (fun a => a.isSchedule) =
      [Action.schedule RevKind.unban 42 (24 * 3600)] ∧
    schedule_unban_fire ⟨1, 2, 3, 4⟩ 42 =
      [Action.unbanOnlyIfBanned 1 42] :=
  ban_command_effects ⟨1, 2, 3, 4⟩ ⟨2, 3, true, "adm"⟩
    ["42", "spam", "24"] [] 500 42 24
    (by decide) (by decide) (by decide) (by decide)

/-- C7 counterexample: `links_callback` is registered globally via a
bare `CallbackQueryHandler` and checks neither the issuer nor the origin:
a `confirm|a.b` callback from a non-administrator with arbitrary chat and
topic ids removes `a.b` from the link allow-list — an allow-list mutation
with every authorization check failing. -/
theorem links_callback_no_auth_counterexample :
    links_callback false 0 0 "confirm|a.b".data
        ["a.b".data, "c.d".data] = ["c.d".data] ∧
    ¬ (["c.d".data] : List (List Char)) = ["a.b".data, "c.d".data] := by
  decide

/-- C7 (amended): the five punishment commands mutate nothing and emit no
action unless the issuer is a verified administrator writing in the admin
group's command topic; `links_command` answers only in that chat and topic
but never checks administratorship (its output is independent of everything
but the chat and topic ids) and performs no mutation itself; and
`links_callback` ignores the issuer and the origin entirely. -/
theorem admin_gating (cfg : Cfg) (m : MsgCtx) (args : List String)
    (db : Ledger) (now : Int) (allowed : List (List Char)) :
    (is_valid_admin_command cfg m = false →
      ban_command cfg m args db now = (db, []) ∧
      warn_command cfg m args db now = (db, []) ∧
      unwarn_command cfg m args db = (db, []) ∧
      mute_command cfg m args db now = (db, []) ∧
      unmute_command cfg m args db = (db, [])) ∧
    (∀ m2 : MsgCtx, m2.chatId = m.chatId → m2.threadId = m.threadId →
      links_command cfg m2 allowed = links_command cfg m allowed) ∧
    (∀ b1 b2 : Bool, ∀ c1 c2 t1 t2 : Int, ∀ data : List Char,
      links_callback b1 c1 t1 data allowed =
        links_callback b2 c2 t2 data allowed) := by
  refine ⟨?_, ?_, ?_⟩
  · intro hv
    exact ⟨by simp [ban_command, hv], by simp [warn_command, hv],
      by simp [unwarn_command, hv], by simp [mute_command, hv],
      by simp [unmute_command, hv]⟩
  · intro m2 hc ht
    simp [links_command, hc, ht]
  · intro b1 b2 c1 c2 t1 t2 data
    rfl

theorem admin_gating_witness :
    ban_command ⟨1, 2, 3, 4⟩ ⟨2, 3, false, "x"⟩ ["42", "r", "5"] [] 9
      = ([], []) ∧
    unmute_command ⟨1, 2, 3, 4⟩ ⟨0, 3, true, "x"⟩ ["42"] [] = ([], []) ∧
    links_callback true 2 3 "confirm|a".data ["a".data] =
      links_callback false 0 0 "confirm|a".data ["a".data] :=
  ⟨((admin_gating ⟨1, 2, 3, 4⟩ ⟨2, 3, false, "x"⟩ ["42", "r", "5"] [] 9
      []).1 (by decide)).1,
   ((admin_gating ⟨1, 2, 3, 4⟩ ⟨0, 3, true, "x"⟩ ["42"] [] 9 []).1
      (by decide)).2.2.2.2,
   (admin_gating ⟨1, 2, 3, 4⟩ ⟨0, 0, true, "x"⟩ [] [] 0 ["a".data]).2.2
      true false 2 0 3 0 "confirm|a".data⟩

/-- C8 counterexample: a valid `/unmute 42` on a ledger holding a mute
entry returns the ledger unchanged — no `remove_last_entry_of_kind`, no
scheduler cancel — emitting only the lift-restriction, reply, log and
cleanup actions; and no `unban` command is registered at all. -/
theorem unmute_no_ledger_removal_counterexample :
    unmute_command ⟨1, 2, 3, 4⟩ ⟨2, 3, true, "adm"⟩ ["42"]
        [⟨42, 0, "a", 0, 0, [mkEntry 3 "mute" "x" 60 "bot"]⟩] =
      ([⟨42, 0, "a", 0, 0, [mkEntry 3 "mute" "x" 60 "bot"]⟩],
       [Action.unrestrict 1 42, Action.reply,
        Action.sendMessage 2 (some 4), Action.deleteCommand]) ∧
    registered_commands.contains "unban" = false := by decide

/-- C8 (amended): of the reversal commands, only `unwarn` touches the
ledger (removing the most recent warn entry); `unmute` performs only the
external lift-restriction action, leaving the ledger unchanged and
cancelling nothing (no scheduler-cancel facility exists in the program);
and there is no `unban` command — the spawned unban task with its
`only_if_banned` flag is the only automatic unban path. -/
theorem reversal_commands (cfg : Cfg) (m : MsgCtx) (s : String)
    (target : Int) (db : Ledger)
    (hadm : is_valid_admin_command cfg m = true)
    (hp : pyInt s = some target) :
    unmute_command cfg m [s] db =
      (db, [Action.unrestrict cfg.frontendChatId target, Action.reply,
            Action.sendMessage cfg.adminGroupId (some cfg.logsThreadId),
            Action.deleteCommand]) ∧
    (∀ r, get_user db target = some r → ¬ r.warns = 0 →
      (unwarn_command cfg m [s] db).1 =
        update_user_record db
          { r with warns := r.warns - 1,
                   history := removeLastWarn r.history }) ∧
    registered_commands.contains "unban" = false := by
  refine ⟨?_, ?_, by decide⟩
  · simp [unmute_command, hadm, hp]
  · intro r hr hz
    have hz2 : (r.warns == 0) = false := by simp [hz]
    simp [unwarn_command, hadm, hp, unwarn_core, hr, hz2]

theorem reversal_commands_witness :
    unmute_command ⟨1, 2, 3, 4⟩ ⟨2, 3, true, "adm"⟩ ["7"] [] =
      ([], [Action.unrestrict 1 7, Action.reply,
            Action.sendMessage 2 (some 4), Action.deleteCommand]) ∧
    registered_commands.contains "unban" = false :=
  ⟨(reversal_commands ⟨1, 2, 3, 4⟩ ⟨2, 3, true, "adm"⟩ "7" 7 []
      (by decide) (by decide)).1,
   (reversal_commands ⟨1, 2, 3, 4⟩ ⟨2, 3, true, "adm"⟩ "7" 7 []
      (by decide) (by decide)).2.2⟩

end Ftgbot
